import Mathlib

/-!
Verification of the dataset-management module of the DNA fibers analysis
package (`dfa/dataset.py`).

The module manages an example dataset stored as a zip archive: it
decompresses the archive into a storing directory, loads a summary table
keyed by (experiment, image, fiber), derives an image-level index and a
profile-level index from that table, and exposes cursor-based batch
generators over both indices.  It can also re-package the dataset
directories into a new archive.

We shallowly embed the relevant parts:

* Python slicing on sequences (`pySlice`), since `next_batch` selects
  `index[begin:end]` and `end` may be negative;
* the generic batch primitive `next_batch` (guard, effective batch size,
  cursor update, slice);
* pandas' first-occurrence `unique` (`uniqueFirst`) used to derive
  `image_index` and `profile_index`;
* the archive member names written by `_save`, and the path set touched
  by `_decompress`, over an association-list file-system model;
* Python generator semantics for `next_batch` (the body runs only when
  the returned generator is first consumed), as a small resumable state
  machine.
-/

namespace DFA

/-- Normalise one bound of a Python slice `l[b:e]` for a sequence of
length `len`: negative indices count from the end (clamped at 0),
non-negative indices are clamped at `len`. -/
def pyNorm (len : Nat) (i : Int) : Nat :=
  if i < 0 then ((len : Int) + i).toNat else min i.toNat len

/-- Python slicing `l[b:e]` with integer bounds (step 1): both bounds are
normalised by `pyNorm` and the slice is empty when the normalised end is
not beyond the normalised begin.  This is also the positional slicing
behaviour of a pandas `Index`. -/
def pySlice (l : List α) (b e : Int) : List α :=
  let b' := pyNorm l.length b
  let e' := pyNorm l.length e
  (l.drop b').take (e' - b')

/-- The three-level key (experiment, image, fiber) of the summary table's
index.  Pandas index entries are rendered with `str` by the code that
builds file names, so we model each level as a string. -/
abbrev Key3 := String × String × String

/-- The two-level key (experiment, image) of `image_index`, obtained by
dropping the `fiber` level. -/
abbrev Key2 := String × String

/-- Dropping the `fiber` level from a (experiment, image, fiber) key, as
`index.droplevel('fiber')` does. -/
def dropFiber (k : Key3) : Key2 := (k.1, k.2.1)

/-- Pandas `Index.unique`: deduplication preserving first-occurrence
order.  `seen` accumulates the values already emitted. -/
def uniqueFirstAux [DecidableEq α] (seen : List α) : List α → List α
  | [] => []
  | x :: xs =>
      if x ∈ seen then uniqueFirstAux seen xs
      else x :: uniqueFirstAux (x :: seen) xs

/-- Deduplication preserving first-occurrence order (`Index.unique`). -/
def uniqueFirst [DecidableEq α] (l : List α) : List α :=
  uniqueFirstAux [] l

/-- The mutable state of a `Dataset` that the batch machinery uses: the
two derived indices and the two cursors `_n_image` and `_n_profile`.
Cursors are integers because `next_batch` adds the raw `batch_size` to
them without validation. -/
structure Dataset where
  image_index : List Key2
  profile_index : List Key3
  n_image : Int
  n_profile : Int
deriving Repr, DecidableEq

/-- The index-derivation part of `Dataset.__init__`: given the
(possibly shuffled) summary index `tmp`, set
`image_index = tmp.droplevel('fiber').unique()`,
`profile_index = tmp.unique()`, and both cursors to 0.  Quantifying over
`tmp` covers every shuffle draw. -/
def Dataset.ofSummaryIndex (tmp : List Key3) : Dataset :=
  { image_index := uniqueFirst (tmp.map dropFiber)
    profile_index := uniqueFirst tmp
    n_image := 0
    n_profile := 0 }

/-- The generic batch primitive `Dataset.next_batch`, specialised to one
index/cursor pair: if the cursor is strictly below the index size, the
effective batch size defaults to the index size when `batch_size` is
`None`, the cursor is set to `cursor + batch_size` (unclamped, and
unvalidated), and the elements of `index[begin:end]` are yielded through
`mapping`; otherwise nothing is yielded and the cursor is untouched. -/
def next_batch (index : List α) (cursor : Int) (mapping : α → β)
    (batch_size : Option Int) : List β × Int :=
  if cursor < (index.length : Int) then
    let bs := batch_size.getD (index.length : Int)
    let endPos := cursor + bs
    ((pySlice index cursor endPos).map mapping, endPos)
  else
    ([], cursor)

/-- `next_image_batch`: `next_batch` over `image_index` and `_n_image`.
The mapping (loading the image and fiber files from disk) is abstracted
as `mapping`. -/
def Dataset.next_image_batch (d : Dataset) (mapping : Key2 → β)
    (batch_size : Option Int) : List β × Dataset :=
  let r := next_batch d.image_index d.n_image mapping batch_size
  (r.1, { d with n_image := r.2 })

/-- `next_profile_batch`: `next_batch` over `profile_index` and
`_n_profile`.  The mapping (loading the profile CSV and the summary row)
is abstracted as `mapping`. -/
def Dataset.next_profile_batch (d : Dataset) (mapping : Key3 → β)
    (batch_size : Option Int) : List β × Dataset :=
  let r := next_batch d.profile_index d.n_profile mapping batch_size
  (r.1, { d with n_profile := r.2 })

/-- A slice with non-negative bounds is an ordinary drop/take. -/
theorem pySlice_of_nonneg (l : List α) (b e : Int) (hb : 0 ≤ b) (he : 0 ≤ e) :
    pySlice l b e = (l.drop b.toNat).take (e.toNat - b.toNat) := by
  simp only [pySlice, pyNorm]
  rw [if_neg (show ¬ b < 0 by omega), if_neg (show ¬ e < 0 by omega)]
  rcases le_or_lt b.toNat l.length with hble | hbgt
  · rw [min_eq_left hble]
    rcases le_or_lt e.toNat l.length with hele | hegt
    · rw [min_eq_left hele]
    · rw [min_eq_right (le_of_lt hegt)]
      rw [List.take_of_length_le (by rw [List.length_drop]),
          List.take_of_length_le (by rw [List.length_drop]; omega)]
  · rw [min_eq_right (le_of_lt hbgt)]
    rw [List.drop_length, List.drop_eq_nil_of_le (by omega)]
    simp

/-- A slice with a non-negative begin and a negative end counts the end
from the end of the sequence (Python semantics). -/
theorem pySlice_of_neg_end (l : List α) (b e : Int) (hb : 0 ≤ b) (he : e < 0) :
    pySlice l b e =
      (l.drop b.toNat).take (((l.length : Int) + e).toNat - b.toNat) := by
  simp only [pySlice, pyNorm]
  rw [if_neg (show ¬ b < 0 by omega), if_pos (show e < 0 from he)]
  rcases le_or_lt b.toNat l.length with hble | hbgt
  · rw [min_eq_left hble]
  · rw [min_eq_right (le_of_lt hbgt)]
    rw [List.drop_length, List.drop_eq_nil_of_le (by omega)]
    simp

/-- The cursor after a `next_batch` call: unchanged when the guard fails,
`cursor + batch_size` (with `None` read as the index size) otherwise. -/
theorem next_batch_cursor (index : List α) (cursor : Int) (mapping : α → β)
    (bs : Option Int) :
    (next_batch index cursor mapping bs).2 =
      if cursor < (index.length : Int) then
        cursor + bs.getD (index.length : Int)
      else cursor := by
  unfold next_batch
  split <;> rfl

/-- The elements of a `next_batch` call whose guard passes, for a cursor
and batch size that are non-negative. -/
theorem next_batch_elems (index : List α) (cursor k : Int) (mapping : α → β)
    (h0 : 0 ≤ cursor) (h1 : cursor < (index.length : Int)) (hk : 0 ≤ k) :
    (next_batch index cursor mapping (some k)).1 =
      ((index.drop cursor.toNat).take k.toNat).map mapping := by
  unfold next_batch
  rw [if_pos h1]
  simp only [Option.getD_some]
  rw [pySlice_of_nonneg index cursor (cursor + k) h0 (by omega)]
  congr 2
  omega

/-- The elements of a `next_batch` call with `batch_size=None` whose
guard passes: all remaining keys. -/
theorem next_batch_elems_none (index : List α) (cursor : Int) (mapping : α → β)
    (h0 : 0 ≤ cursor) (h1 : cursor < (index.length : Int)) :
    (next_batch index cursor mapping none).1 =
      (index.drop cursor.toNat).map mapping := by
  unfold next_batch
  rw [if_pos h1]
  simp only [Option.getD_none]
  rw [pySlice_of_nonneg index cursor (cursor + index.length) h0 (by omega)]
  rw [List.take_of_length_le (by rw [List.length_drop]; omega)]

/-- C3: for a Dataset whose cursor is strictly below its index length, a
batch call starts at the current cursor, yields the mapped elements of
the index keys from the cursor up to `cursor + batchSize` (all remaining
keys when the batch size is unspecified), one per key in index order, and
sets the cursor to `cursor + batchSize`, not clamped to the index length;
with an unspecified batch size the cursor is set to
`cursor + indexLength`, which is at least the index length, so the
remainder is consumed. -/
theorem next_batch_below_end (index : List α) (cursor : Int) (mapping : α → β)
    (h0 : 0 ≤ cursor) (h1 : cursor < (index.length : Int)) :
    (∀ k : Int, 0 ≤ k →
      next_batch index cursor mapping (some k) =
        (((index.drop cursor.toNat).take k.toNat).map mapping, cursor + k)) ∧
    next_batch index cursor mapping none =
      ((index.drop cursor.toNat).map mapping, cursor + index.length) ∧
    (index.length : Int) ≤ cursor + index.length := by
  refine ⟨fun k hk => ?_, ?_, by omega⟩
  · have hc := next_batch_cursor index cursor mapping (some k)
    rw [if_pos h1] at hc
    have he := next_batch_elems index cursor k mapping h0 h1 hk
    exact Prod.ext he hc
  · have hc := next_batch_cursor index cursor mapping none
    rw [if_pos h1] at hc
    have he := next_batch_elems_none index cursor mapping h0 h1
    exact Prod.ext he hc

/-- Witness for C3 at a concrete input: index of length 3, cursor 1,
batch size 5 (past the end, cursor not clamped) and batch size `None`. -/
theorem next_batch_below_end_witness :
    (0 : Int) ≤ 1 ∧ (1 : Int) < (([10, 20, 30] : List Nat).length : Int) ∧
      next_batch [10, 20, 30] 1 (fun x => x + 1) (some 5) = ([21, 31], 6) ∧
      next_batch [10, 20, 30] 1 (fun x => x + 1) none = ([21, 31], 4) := by
  refine ⟨by decide, by decide, ?_, ?_⟩
  · have h := (next_batch_below_end [10, 20, 30] 1 (fun x => x + 1)
      (by decide) (by decide)).1 5 (by decide)
    simpa using h
  · have h := (next_batch_below_end [10, 20, 30] 1 (fun x => x + 1)
      (by decide) (by decide)).2.1
    simpa using h

/-- C4: for a Dataset whose cursor is at or past the length of the
corresponding index, a batch call with any batch size yields no elements,
leaves the Dataset unchanged, and does not fail (the generator simply
terminates). -/
theorem batch_at_end (d : Dataset) (mapping2 : Key2 → β) (mapping3 : Key3 → γ)
    (bs bs' : Option Int)
    (h2 : (d.image_index.length : Int) ≤ d.n_image)
    (h3 : (d.profile_index.length : Int) ≤ d.n_profile) :
    d.next_image_batch mapping2 bs = ([], d) ∧
    d.next_profile_batch mapping3 bs' = ([], d) := by
  constructor
  · unfold Dataset.next_image_batch next_batch
    rw [if_neg (by omega)]
  · unfold Dataset.next_profile_batch next_batch
    rw [if_neg (by omega)]

/-- Witness for C4 at a concrete Dataset: one image key and one profile
key, both cursors already at 1. -/
theorem batch_at_end_witness :
    ((({ image_index := [("a", "1")], profile_index := [("a", "1", "2")],
         n_image := 1, n_profile := 1 } : Dataset).image_index.length : Int) ≤ 1) ∧
    (({ image_index := [("a", "1")], profile_index := [("a", "1", "2")],
        n_image := 1, n_profile := 1 } : Dataset).next_image_batch id (some 7) =
      ([], { image_index := [("a", "1")], profile_index := [("a", "1", "2")],
             n_image := 1, n_profile := 1 })) := by
  refine ⟨by decide, ?_⟩
  exact (batch_at_end
    { image_index := [("a", "1")], profile_index := [("a", "1", "2")],
      n_image := 1, n_profile := 1 } id id (some 7) none
    (by decide) (by decide)).1

/-- C10 as stated is false: with a negative batch size the slice
`index[cursor : cursor + batch_size]` follows Python's negative-index
semantics and can be non-empty.  At index `[0, 1]`, cursor `0` and
`batch_size = -1` the call yields the element `0` (and sets the cursor
to `-1`), while the claim says a negative batch size yields no
elements. -/
theorem next_batch_neg_counterexample :
    (next_batch [0, 1] 0 (fun n : Nat => n) (some (-1))).1 = [0] ∧
    (next_batch [0, 1] 0 (fun n : Nat => n) (some (-1))).1 ≠ [] ∧
    (next_batch [0, 1] 0 (fun n : Nat => n) (some (-1))).2 = -1 := by
  decide

/-- C10 amended: `next_batch` does not validate `batch_size`: whenever
the cursor is strictly below the index length, the cursor is set to
`cursor + batch_size`; `batch_size = 0` yields no elements and leaves the
cursor unchanged; a negative `batch_size` moves the cursor backward and
yields the Python slice `index[cursor : cursor + batch_size]`, which is
non-empty whenever `0 ≤ cursor`, `cursor + batch_size < 0` and
`0 < index length + batch_size` (a negative slice end counts from the
end of the index). -/
theorem next_batch_unvalidated (index : List α) (cursor bs : Int)
    (mapping : α → β) (h1 : cursor < (index.length : Int)) :
    (next_batch index cursor mapping (some bs)).2 = cursor + bs ∧
    (bs = 0 → next_batch index cursor mapping (some bs) = ([], cursor)) ∧
    (bs < 0 → (next_batch index cursor mapping (some bs)).2 < cursor) ∧
    (bs < 0 → 0 ≤ cursor → cursor + bs < 0 → 0 < (index.length : Int) + bs →
      (next_batch index cursor mapping (some bs)).1 ≠ []) := by
  have hc := next_batch_cursor index cursor mapping (some bs)
  rw [if_pos h1] at hc
  simp only [Option.getD_some] at hc
  refine ⟨hc, ?_, fun hneg => by rw [hc]; omega, fun hneg h0 hend hin => ?_⟩
  · rintro rfl
    unfold next_batch
    rw [if_pos h1]
    simp only [Option.getD_some, Int.add_zero, pySlice, Nat.sub_self,
      List.take_zero, List.map_nil]
  · unfold next_batch
    rw [if_pos h1]
    simp only [Option.getD_some]
    rw [pySlice_of_neg_end index cursor (cursor + bs) h0 hend]
    intro hnil
    rw [List.map_eq_nil_iff, List.take_eq_nil_iff] at hnil
    rcases hnil with hnil | hnil
    · omega
    · rw [List.drop_eq_nil_iff] at hnil
      omega

/-- Witness for C10's amended theorem at a concrete input: index of
length 3, cursor 0, batch size `-1`. -/
theorem next_batch_unvalidated_witness :
    ((0 : Int) < (([10, 20, 30] : List Nat).length : Int)) ∧
    (next_batch [10, 20, 30] 0 (fun x : Nat => x) (some (-1))).2 = -1 ∧
    (next_batch [10, 20, 30] 0 (fun x : Nat => x) (some (-1))).1 ≠ [] := by
  have h := next_batch_unvalidated [10, 20, 30] 0 (-1) (fun x : Nat => x)
    (by decide)
  refine ⟨by decide, ?_,
    h.2.2.2 (by decide) (by decide) (by decide) (by decide)⟩
  rw [h.1]
  decide

/-- One batch call against a `Dataset`, identified by which index/cursor
pair it uses and its `batch_size` argument. -/
inductive BatchCall where
  | image (bs : Option Int)
  | profile (bs : Option Int)
deriving Repr, DecidableEq

/-- The state change a batch call performs on a `Dataset` (the yielded
elements do not feed back into the state, so the mapping is irrelevant
here and instantiated with the identity on keys). -/
def Dataset.applyCall (d : Dataset) : BatchCall → Dataset
  | .image bs => (d.next_image_batch id bs).2
  | .profile bs => (d.next_profile_batch id bs).2

/-- The state after a sequence of batch calls. -/
def Dataset.applyCalls (d : Dataset) (cs : List BatchCall) : Dataset :=
  cs.foldl Dataset.applyCall d

/-- A call is bounded when the relevant cursor is already at or past its
index length (the call is then a no-op) or the effective batch size does
not exceed the number of remaining keys. -/
def Dataset.callBounded (d : Dataset) : BatchCall → Bool
  | .image bs =>
      ((d.image_index.length : Int) ≤ d.n_image) ||
      (bs.getD (d.image_index.length : Int) ≤
        (d.image_index.length : Int) - d.n_image)
  | .profile bs =>
      ((d.profile_index.length : Int) ≤ d.n_profile) ||
      (bs.getD (d.profile_index.length : Int) ≤
        (d.profile_index.length : Int) - d.n_profile)

/-- A sequence of calls is bounded when each call is bounded in the state
it actually runs in. -/
def Dataset.callsBounded (d : Dataset) : List BatchCall → Bool
  | [] => true
  | c :: cs => d.callBounded c && (d.applyCall c).callsBounded cs

/-- Batch calls change only the cursors, never the indices. -/
theorem applyCall_indices (d : Dataset) (c : BatchCall) :
    (d.applyCall c).image_index = d.image_index ∧
    (d.applyCall c).profile_index = d.profile_index := by
  cases c <;>
    simp [Dataset.applyCall, Dataset.next_image_batch, Dataset.next_profile_batch]

/-- C2 as stated is false: the cursor is set to `cursor + batch_size`
without clamping, so a single image-batch call of size 5 on a dataset
with one image key drives the image cursor to 5, past the index length
1. -/
theorem cursor_exceeds_counterexample :
    (Dataset.ofSummaryIndex [("a", "1", "f1")]).image_index.length = 1 ∧
    ((Dataset.ofSummaryIndex [("a", "1", "f1")]).applyCall
        (.image (some 5))).n_image = 5 ∧
    ¬ (((Dataset.ofSummaryIndex [("a", "1", "f1")]).applyCall
        (.image (some 5))).n_image ≤
      ((Dataset.ofSummaryIndex [("a", "1", "f1")]).image_index.length : Int)) := by
  decide

/-- C2 amended: the cursors are not clamped and a single oversized batch
request pushes them past the index length; however, along any sequence of
batch calls in which every call is bounded (its effective batch size does
not exceed the keys remaining for its cursor, unless that cursor is
already at or past the end, in which case the call is a no-op), both the
image cursor and the profile cursor never exceed the lengths of
`image_index` and `profile_index`. -/
theorem cursor_bounded_calls (d : Dataset) (cs : List BatchCall)
    (h2 : d.n_image ≤ (d.image_index.length : Int))
    (h3 : d.n_profile ≤ (d.profile_index.length : Int))
    (hb : d.callsBounded cs = true) :
    (d.applyCalls cs).n_image ≤ ((d.applyCalls cs).image_index.length : Int) ∧
    (d.applyCalls cs).n_profile ≤
      ((d.applyCalls cs).profile_index.length : Int) := by
  induction cs generalizing d with
  | nil => exact ⟨h2, h3⟩
  | cons c cs ih =>
      rw [Dataset.callsBounded, Bool.and_eq_true] at hb
      have hstep2 : (d.applyCall c).n_image ≤
          ((d.applyCall c).image_index.length : Int) := by
        rcases c with bs | bs
        · have hcb := hb.1
          rw [Dataset.callBounded, Bool.or_eq_true, decide_eq_true_eq,
            decide_eq_true_eq] at hcb
          simp only [Dataset.applyCall, Dataset.next_image_batch,
            next_batch_cursor]
          split
          · rcases hcb with hcb | hcb
            · omega
            · omega
          · exact h2
        · simpa only [Dataset.applyCall, Dataset.next_profile_batch] using h2
      have hstep3 : (d.applyCall c).n_profile ≤
          ((d.applyCall c).profile_index.length : Int) := by
        rcases c with bs | bs
        · simpa only [Dataset.applyCall, Dataset.next_image_batch] using h3
        · have hcb := hb.1
          rw [Dataset.callBounded, Bool.or_eq_true, decide_eq_true_eq,
            decide_eq_true_eq] at hcb
          simp only [Dataset.applyCall, Dataset.next_profile_batch,
            next_batch_cursor]
          split
          · rcases hcb with hcb | hcb
            · omega
            · omega
          · exact h3
      exact ih (d.applyCall c) hstep2 hstep3 hb.2

/-- Witness for C2's amended theorem: two bounded calls (an image batch
of size 1, then a profile batch with `None`) on a dataset with one image
and two profiles leave both cursors within their index lengths. -/
theorem cursor_bounded_calls_witness :
    ((Dataset.ofSummaryIndex [("a", "1", "f1"), ("a", "1", "f2")]).n_image ≤
      (((Dataset.ofSummaryIndex
        [("a", "1", "f1"), ("a", "1", "f2")]).image_index.length : Int))) ∧
    ((Dataset.ofSummaryIndex
        [("a", "1", "f1"), ("a", "1", "f2")]).callsBounded
      [.image (some 1), .profile none] = true) ∧
    (((Dataset.ofSummaryIndex [("a", "1", "f1"), ("a", "1", "f2")]).applyCalls
        [.image (some 1), .profile none]).n_image ≤
      ((((Dataset.ofSummaryIndex [("a", "1", "f1"), ("a", "1", "f2")]).applyCalls
        [.image (some 1), .profile none]).image_index.length : Int))) := by
  refine ⟨by decide, by decide, ?_⟩
  exact (cursor_bounded_calls
    (Dataset.ofSummaryIndex [("a", "1", "f1"), ("a", "1", "f2")])
    [.image (some 1), .profile none]
    (by decide) (by decide) (by decide)).1

/-- Repeatedly request batches of size `k` (collecting each call's
yielded keys) until a call yields an empty result; `fuel` bounds the
number of calls so the recursion is structural.  Returns the list of
successive non-empty batches. -/
def drainBatches (index : List α) (cursor : Int) (k : Int) : Nat → List (List α)
  | 0 => []
  | fuel + 1 =>
      let r := next_batch index cursor id (some k)
      if r.1.isEmpty then []
      else r.1 :: drainBatches index r.2 k fuel

/-- Draining from a non-negative cursor with `k ≥ 1` and enough fuel
yields exactly the remaining keys, partitioned in order. -/
theorem drainBatches_flatten (index : List α) (k : Int) (hk : 1 ≤ k) :
    ∀ (fuel : Nat) (c : Nat), index.length - c ≤ fuel →
      (drainBatches index (c : Int) k fuel).flatten = index.drop c := by
  intro fuel
  induction fuel with
  | zero =>
      intro c hc
      rw [drainBatches, List.flatten_nil,
        Eq.comm, List.drop_eq_nil_iff]
      omega
  | succ fuel ih =>
      intro c hc
      rcases lt_or_le (c : Int) (index.length : Int) with h1 | h1
      · have he := next_batch_elems index (c : Int) k id
          (by omega) h1 (by omega)
        have hcur := next_batch_cursor index (c : Int) id (some k)
        rw [if_pos h1] at hcur
        simp only [Option.getD_some] at hcur
        have hne : (next_batch index (c : Int) id (some k)).1 ≠ [] := by
          rw [he, List.map_id, Ne, List.take_eq_nil_iff]
          push_neg
          constructor
          · omega
          · intro hd
            rw [List.drop_eq_nil_iff] at hd
            omega
        rw [drainBatches]
        simp only [List.isEmpty_eq_true, hne, if_false]
        have hcast : (next_batch index (c : Int) id (some k)).2 =
            ((c + k.toNat : Nat) : Int) := by
          rw [hcur]
          push_cast
          omega
        rw [hcast, List.flatten_cons, ih (c + k.toNat) (by omega),
          he, List.map_id, Int.toNat_ofNat, List.drop_take_append_drop]
      · rw [drainBatches]
        have hempty : (next_batch index (c : Int) id (some k)).1 = [] := by
          unfold next_batch
          rw [if_neg (by omega)]
        simp only [hempty, List.isEmpty_nil, if_true, List.flatten_nil,
          Eq.comm, List.drop_eq_nil_iff]
        omega

/-- C5: for every index and every batch size `k ≥ 1`, repeatedly
requesting batches of size `k` until the result is empty yields, over all
calls concatenated, exactly the same keys in exactly the same order as a
single call with unspecified batch size on a fresh Dataset (cursor 0)
with the same index: the whole index, partitioned in order into
consecutive chunks. -/
theorem drain_eq_unbounded (index : List α) (k : Int) (fuel : Nat)
    (hk : 1 ≤ k) (hf : index.length ≤ fuel) :
    (drainBatches index 0 k fuel).flatten =
      (next_batch index 0 id none).1 ∧
    (drainBatches index 0 k fuel).flatten = index := by
  have hmain : (drainBatches index 0 k fuel).flatten = index := by
    have h := drainBatches_flatten index k hk fuel 0 (by omega)
    simpa using h
  refine ⟨?_, hmain⟩
  rw [hmain]
  rcases Nat.eq_zero_or_pos index.length with h0 | h0
  · rw [List.length_eq_zero] at h0
    subst h0
    rfl
  · have he := next_batch_elems_none index 0 id (le_refl 0) (by omega)
    rw [he]
    simp

/-- Witness for C5 at a concrete input: index of length 3 drained with
`k = 2` (batches `[10, 20]` then `[30]`) equals the single unbounded
request. -/
theorem drain_eq_unbounded_witness :
    (1 : Int) ≤ 2 ∧ ([10, 20, 30] : List Nat).length ≤ 3 ∧
    (drainBatches [10, 20, 30] 0 2 3).flatten =
      (next_batch [10, 20, 30] 0 id none).1 ∧
    drainBatches [10, 20, 30] 0 2 3 = [[10, 20], [30]] := by
  refine ⟨by decide, by decide, ?_, by decide⟩
  exact (drain_eq_unbounded [10, 20, 30] 2 3 (by decide) (by decide)).1

/-- Membership in `uniqueFirstAux`: the elements of the input that are
not in the `seen` accumulator. -/
theorem mem_uniqueFirstAux [DecidableEq α] (l : List α) :
    ∀ (seen : List α) (a : α),
      a ∈ uniqueFirstAux seen l ↔ a ∈ l ∧ a ∉ seen := by
  induction l with
  | nil => intro seen a; simp [uniqueFirstAux]
  | cons x xs ih =>
      intro seen a
      rw [uniqueFirstAux]
      split
      next hx =>
        simp only [ih, List.mem_cons]
        by_cases hax : a = x
        · subst hax; tauto
        · tauto
      next hx =>
        simp only [List.mem_cons, ih]
        by_cases hax : a = x
        · subst hax; tauto
        · tauto

/-- The output of `uniqueFirstAux` has no duplicates. -/
theorem nodup_uniqueFirstAux [DecidableEq α] (l : List α) :
    ∀ seen : List α, (uniqueFirstAux seen l).Nodup := by
  induction l with
  | nil => intro seen; simp [uniqueFirstAux]
  | cons x xs ih =>
      intro seen
      rw [uniqueFirstAux]
      split
      · exact ih seen
      · refine List.nodup_cons.mpr ⟨?_, ih (x :: seen)⟩
        intro hx
        exact ((mem_uniqueFirstAux xs (x :: seen) x).mp hx).2
          (List.mem_cons_self x seen)

/-- `uniqueFirst` produces a list with no duplicates. -/
theorem nodup_uniqueFirst [DecidableEq α] (l : List α) :
    (uniqueFirst l).Nodup :=
  nodup_uniqueFirstAux l []

/-- `uniqueFirstAux` never lengthens its input. -/
theorem length_uniqueFirstAux_le [DecidableEq α] (l : List α) :
    ∀ seen : List α, (uniqueFirstAux seen l).length ≤ l.length := by
  induction l with
  | nil => intro seen; simp [uniqueFirstAux]
  | cons x xs ih =>
      intro seen
      rw [uniqueFirstAux]
      split
      · exact le_trans (ih seen) (Nat.le_succ _)
      · exact Nat.succ_le_succ (ih (x :: seen))

/-- `uniqueFirstAux` strictly shortens its input when the input has a
duplicate or contains an element of the accumulator. -/
theorem length_uniqueFirstAux_lt [DecidableEq α] (l : List α) :
    ∀ seen : List α, ((∃ y ∈ l, y ∈ seen) ∨ ¬ l.Nodup) →
      (uniqueFirstAux seen l).length < l.length := by
  induction l with
  | nil =>
      intro seen h
      rcases h with ⟨y, hy, _⟩ | h
      · exact absurd hy (List.not_mem_nil y)
      · exact absurd List.nodup_nil h
  | cons x xs ih =>
      intro seen h
      rw [uniqueFirstAux]
      split
      next hx =>
        exact Nat.lt_succ_of_le (length_uniqueFirstAux_le xs seen)
      next hx =>
        have hlt : (uniqueFirstAux (x :: seen) xs).length < xs.length := by
          apply ih
          rcases h with ⟨y, hy, hys⟩ | h
          · rcases List.mem_cons.mp hy with rfl | hy
            · exact absurd hys hx
            · exact Or.inl ⟨y, hy, List.mem_cons_of_mem x hys⟩
          · rw [List.nodup_cons] at h
            push_neg at h
            by_cases hxx : x ∈ xs
            · exact Or.inl ⟨x, hxx, List.mem_cons_self x seen⟩
            · exact Or.inr (h hxx)
        simp only [List.length_cons]
        omega

/-- `uniqueFirstAux` leaves a duplicate-free list disjoint from the
accumulator unchanged. -/
theorem uniqueFirstAux_eq_self [DecidableEq α] (l : List α) :
    ∀ seen : List α, l.Nodup → (∀ y ∈ l, y ∉ seen) →
      uniqueFirstAux seen l = l := by
  induction l with
  | nil => intro seen _ _; rfl
  | cons x xs ih =>
      intro seen hnd hdisj
      rw [uniqueFirstAux]
      rw [if_neg (hdisj x (List.mem_cons_self x xs))]
      rw [List.nodup_cons] at hnd
      congr 1
      refine ih (x :: seen) hnd.2 fun y hy hmem => ?_
      rcases List.mem_cons.mp hmem with rfl | hmem
      · exact hnd.1 hy
      · exact hdisj y (List.mem_cons_of_mem x hy) hmem

/-- `uniqueFirst` preserves the length exactly when the input already
has no duplicates. -/
theorem length_uniqueFirst_eq_iff [DecidableEq α] (l : List α) :
    (uniqueFirst l).length = l.length ↔ l.Nodup := by
  constructor
  · intro h
    by_contra hnd
    have := length_uniqueFirstAux_lt l [] (Or.inr hnd)
    rw [uniqueFirst] at h
    omega
  · intro hnd
    rw [uniqueFirst, uniqueFirstAux_eq_self l [] hnd (by simp)]

/-- Deduplication commutes with projection in the sense needed for the
two index derivations: deduplicating the projections of a list is the
same as deduplicating the projections of the deduplicated list.  The
accumulators `S` and `T` are related by `f`. -/
theorem uniqueFirstAux_map_uniqueFirstAux [DecidableEq α] [DecidableEq β]
    (f : α → β) (l : List α) :
    ∀ (S : List β) (T : List α), (∀ y ∈ T, f y ∈ S) →
      uniqueFirstAux S (l.map f) =
        uniqueFirstAux S ((uniqueFirstAux T l).map f) := by
  induction l with
  | nil => intro S T _; rfl
  | cons x xs ih =>
      intro S T hST
      rw [List.map_cons, uniqueFirstAux, uniqueFirstAux]
      by_cases hx : x ∈ T
      · rw [if_pos hx, if_pos (hST x hx)]
        exact ih S T hST
      · rw [if_neg hx, List.map_cons, uniqueFirstAux]
        by_cases hfx : f x ∈ S
        · rw [if_pos hfx, if_pos hfx]
          refine ih S (x :: T) fun y hy => ?_
          rcases List.mem_cons.mp hy with rfl | hy
          · exact hfx
          · exact hST y hy
        · rw [if_neg hfx, if_neg hfx]
          congr 1
          refine ih (f x :: S) (x :: T) fun y hy => ?_
          rcases List.mem_cons.mp hy with rfl | hy
          · exact List.mem_cons_self _ _
          · exact List.mem_cons_of_mem _ (hST y hy)

/-- Deduplicating the projections of a list equals deduplicating the
projections of its deduplication. -/
theorem uniqueFirst_map_uniqueFirst [DecidableEq α] [DecidableEq β]
    (f : α → β) (l : List α) :
    uniqueFirst (l.map f) = uniqueFirst ((uniqueFirst l).map f) :=
  uniqueFirstAux_map_uniqueFirstAux f l [] [] (by simp)

/-- C6: for every Dataset (i.e. for every shuffle draw of the summary
index `tmp`), `image_index` is exactly the distinct (experiment, image)
pairs obtained by dropping the fiber component of `profile_index`,
deduplicated preserving first-occurrence order; hence
`image_index.length ≤ profile_index.length`, with equality iff no two
distinct profile keys share an (experiment, image) pair — each image has
exactly one fiber. -/
theorem image_index_projection (tmp : List Key3) :
    (Dataset.ofSummaryIndex tmp).image_index =
      uniqueFirst ((Dataset.ofSummaryIndex tmp).profile_index.map dropFiber) ∧
    (Dataset.ofSummaryIndex tmp).image_index.length ≤
      (Dataset.ofSummaryIndex tmp).profile_index.length ∧
    ((Dataset.ofSummaryIndex tmp).image_index.length =
        (Dataset.ofSummaryIndex tmp).profile_index.length ↔
      ∀ p ∈ (Dataset.ofSummaryIndex tmp).profile_index,
        ∀ q ∈ (Dataset.ofSummaryIndex tmp).profile_index,
          dropFiber p = dropFiber q → p = q) := by
  have hproj : (Dataset.ofSummaryIndex tmp).image_index =
      uniqueFirst ((Dataset.ofSummaryIndex tmp).profile_index.map dropFiber) := by
    simp only [Dataset.ofSummaryIndex]
    exact uniqueFirst_map_uniqueFirst dropFiber tmp
  have hnodup : (Dataset.ofSummaryIndex tmp).profile_index.Nodup :=
    nodup_uniqueFirst tmp
  refine ⟨hproj, ?_, ?_⟩
  · rw [hproj]
    calc (uniqueFirst ((Dataset.ofSummaryIndex tmp).profile_index.map
            dropFiber)).length
        ≤ ((Dataset.ofSummaryIndex tmp).profile_index.map dropFiber).length :=
          length_uniqueFirstAux_le _ []
      _ = (Dataset.ofSummaryIndex tmp).profile_index.length :=
          List.length_map _ _
  · rw [hproj]
    rw [show (Dataset.ofSummaryIndex tmp).profile_index.length =
        ((Dataset.ofSummaryIndex tmp).profile_index.map dropFiber).length from
      (List.length_map _ _).symm]
    rw [length_uniqueFirst_eq_iff]
    exact List.nodup_map_iff_inj_on hnodup

/-- Modelled from the spec: the module-level constant
`utilities.fiber_indicator` is not part of the sources at hand (only
`dataset.py` is); the spec describes the profile file name as experiment
and image joined with `-`, a literal fiber-indicator token, the fiber id
and `.csv`, and the loading path in `next_profile_batch` uses the format
`{}-{}-Profiles #{}.csv`, so by the spec's naming-symmetry note the token
is `"-Profiles #"`. -/
def fiber_indicator : String := "-Profiles #"

/-- `'-'.join(str(e) for e in ix)` for an (experiment, image) key. -/
def imageName (k : Key2) : String := k.1 ++ "-" ++ k.2

/-- The archive members written by `Dataset._save` when called through
`Dataset.save`, as (top-level directory, file name) pairs: `save` passes
`<dataset_path>/images`, `<dataset_path>/fibers` and
`<dataset_path>/profiles`, whose base names are `images`, `fibers` and
`profiles`, and `_save` stores each file under
`os.path.join(basename(dir), name)`.  Per unique (experiment, image) key
a `.tif` and a `.zip` member; per unique (experiment, image, fiber) key
a profile `.csv` member. -/
def saveEntries (summaryIndex : List Key3) : List (String × String) :=
  ((uniqueFirst (summaryIndex.map dropFiber)).flatMap fun ix =>
    [("images", imageName ix ++ ".tif"), ("fibers", imageName ix ++ ".zip")]) ++
  (uniqueFirst summaryIndex).map fun ix =>
    ("profiles", ix.1 ++ "-" ++ ix.2.1 ++ fiber_indicator ++ ix.2.2 ++ ".csv")

/-- Whether a freshly constructed Dataset can read its summary table
after the archive with the given members is extracted into the storing
path: `__init__` reads `summary.csv` from
`storing_path/<archiveBaseNameWithoutExtension>/`, and extraction places
member (d, f) at `storing_path/d/f`, so the read finds a file exactly
when the archive has the member (base, "summary.csv"). -/
def summaryReadable (entries : List (String × String)) (base : String) : Bool :=
  entries.contains (base, "summary.csv")

/-- No file name of the form `<s>.tif` is `summary.csv`. -/
theorem tif_ne_summary (s : String) : s ++ ".tif" ≠ "summary.csv" := by
  intro h
  have h2 : (s ++ ".tif").data = "summary.csv".data := by rw [h]
  rw [String.data_append] at h2
  have h3 := congrArg (fun l => l.reverse.head?) h2
  simp at h3

/-- No file name of the form `<s>.zip` is `summary.csv`. -/
theorem zip_ne_summary (s : String) : s ++ ".zip" ≠ "summary.csv" := by
  intro h
  have h2 : (s ++ ".zip").data = "summary.csv".data := by rw [h]
  rw [String.data_append] at h2
  have h3 := congrArg (fun l => l.reverse.head?) h2
  simp at h3

/-- No profile file name is `summary.csv` (it is at least 16 characters
long). -/
theorem profile_ne_summary (a b c : String) :
    a ++ "-" ++ b ++ fiber_indicator ++ c ++ ".csv" ≠ "summary.csv" := by
  intro h
  have h2 := congrArg String.length h
  simp only [String.length_append] at h2
  have e1 : "-".length = 1 := rfl
  have e2 : fiber_indicator.length = 11 := rfl
  have e3 : ".csv".length = 4 := rfl
  have e4 : "summary.csv".length = 11 := rfl
  omega

/-- C1 fails on the code: whatever the summary table, the archive
produced by `save` contains no member `<base>/summary.csv` for any base
directory — in particular not for the base name of the new archive — so
constructing a Dataset from the saved archive cannot read a summary
table at `storing_path/<archiveBase>/summary.csv`: re-loading fails
instead of round-tripping `summaryTable`.  (The saved archive also
stores images under `images/` while loading reads `input/`.) -/
theorem save_omits_summary (summaryIndex : List Key3) (base : String) :
    summaryReadable (saveEntries summaryIndex) base = false := by
  rw [summaryReadable]
  rw [show ∀ l : List (String × String),
      (l.contains (base, "summary.csv") = false) = ((base, "summary.csv") ∉ l)
    from fun l => by simp]
  intro hmem
  rw [saveEntries, List.mem_append] at hmem
  rcases hmem with hmem | hmem
  · rw [List.mem_flatMap] at hmem
    rcases hmem with ⟨ix, _, hmem⟩
    simp only [List.mem_cons, List.not_mem_nil, or_false] at hmem
    rcases hmem with hmem | hmem
    · exact tif_ne_summary (imageName ix) (congrArg Prod.snd hmem).symm
    · exact zip_ne_summary (imageName ix) (congrArg Prod.snd hmem).symm
  · rw [List.mem_map] at hmem
    rcases hmem with ⟨ix, _, hmem⟩
    exact profile_ne_summary ix.1 ix.2.1 ix.2.2 (congrArg Prod.snd hmem)

/-- Evaluation of C1's failure at a concrete input: a dataset with a
single profile key produces an archive with exactly three members, none
of which is a summary table. -/
theorem save_omits_summary_concrete :
    saveEntries [("a", "1", "f1")] =
      [("images", "a-1.tif"), ("fibers", "a-1.zip"),
       ("profiles", "a-1-Profiles #f1.csv")] ∧
    summaryReadable (saveEntries [("a", "1", "f1")]) "mydataset" = false := by
  constructor
  · rfl
  · decide

/-- A file system, as an association list from absolute file paths to
file contents.  Directories are implicit: a directory exists when some
file lives strictly below it. -/
abbrev FS := List (String × String)

/-- Writing one file: overwrite the content if the path is present,
append the new file otherwise (what each member extraction of
`zipfile.extractall` does). -/
def fsWrite (fs : FS) (p c : String) : FS :=
  if fs.any fun e => e.1 == p then
    fs.map fun e => if e.1 = p then (p, c) else e
  else fs ++ [(p, c)]

/-- `zipfile.extractall`: write every archive member in order. -/
def extractAll (fs : FS) (ms : List (String × String)) : FS :=
  ms.foldl (fun s m => fsWrite s m.1 m.2) fs

/-- `os.path.exists`: a path exists when it is a file of the file system
or a directory implied by one (a proper prefix followed by `/`).  The
prefix test is on the character lists of the two paths. -/
def existsPath (fs : FS) (p : String) : Bool :=
  fs.any fun e => e.1 == p || (p ++ "/").data.isPrefixOf e.1.data

/-- `self.dataset_path = os.path.join(storing_path, splitext(basename(archive))[0])`. -/
def datasetPath (storing base : String) : String := storing ++ "/" ++ base

/-- The file-system effect of `Dataset.__init__` up to the summary read:
`_decompress` (extracting every archive member `m` to
`storing_path/m`) runs iff `force_decompress` is set or `dataset_path`
does not exist. -/
def initDecompress (fs : FS) (storing base : String)
    (members : List (String × String)) (force : Bool) : FS :=
  if force || !(existsPath fs (datasetPath storing base)) then
    extractAll fs (members.map fun m => (storing ++ "/" ++ m.1, m.2))
  else fs

/-- Keys after a write: the old keys plus the written path. -/
theorem mem_keys_fsWrite (fs : FS) (p c q : String) :
    q ∈ (fsWrite fs p c).map Prod.fst ↔ q ∈ fs.map Prod.fst ∨ q = p := by
  rw [fsWrite]
  split
  next hany =>
    rw [List.any_eq_true] at hany
    rcases hany with ⟨e, he, hep⟩
    rw [beq_iff_eq] at hep
    rw [List.map_map]
    constructor
    · intro hq
      rw [List.mem_map] at hq
      rcases hq with ⟨e', he', hq⟩
      by_cases hc : e'.1 = p
      · subst hq
        simp only [Function.comp_apply, if_pos hc]
        exact Or.inr trivial
      · subst hq
        simp only [Function.comp_apply, if_neg hc]
        exact Or.inl (List.mem_map_of_mem Prod.fst he')
    · intro hq
      rcases hq with hq | rfl
      · rw [List.mem_map] at hq
        rcases hq with ⟨e', he', hq⟩
        rw [List.mem_map]
        refine ⟨e', he', ?_⟩
        by_cases hc : e'.1 = p
        · simp only [Function.comp_apply, if_pos hc]
          rw [← hq, hc]
        · simp only [Function.comp_apply, if_neg hc]
          exact hq
      · rw [List.mem_map]
        exact ⟨e, he, by simp only [Function.comp_apply, if_pos hep]⟩
  next hany =>
    rw [List.map_append, List.mem_append]
    simp

/-- Keys after extracting an archive: the old keys plus the member
paths. -/
theorem mem_keys_extractAll (ms : List (String × String)) :
    ∀ (fs : FS) (q : String),
      q ∈ (extractAll fs ms).map Prod.fst ↔
        q ∈ fs.map Prod.fst ∨ q ∈ ms.map Prod.fst := by
  induction ms with
  | nil => intro fs q; simp [extractAll]
  | cons m ms ih =>
      intro fs q
      rw [extractAll, List.foldl_cons]
      rw [show (ms.foldl (fun s m => fsWrite s m.1 m.2) (fsWrite fs m.1 m.2)) =
        extractAll (fsWrite fs m.1 m.2) ms from rfl]
      rw [ih, mem_keys_fsWrite, List.map_cons, List.mem_cons]
      tauto

/-- The last content an archive associates to a path (`d` when the path
is not a member path). -/
def lastVal (ms : List (String × String)) (q d : String) : String :=
  ms.foldl (fun acc m => if m.1 = q then m.2 else acc) d

/-- `lastVal` of a non-member path is the default. -/
theorem lastVal_of_not_mem (ms : List (String × String)) :
    ∀ (q d : String), q ∉ ms.map Prod.fst → lastVal ms q d = d := by
  induction ms with
  | nil => intro q d _; rfl
  | cons m ms ih =>
      intro q d hq
      rw [List.map_cons, List.mem_cons] at hq
      push_neg at hq
      rw [lastVal, List.foldl_cons, if_neg (fun h => hq.1 h.symm)]
      exact ih q d hq.2

/-- `lastVal` of a member path does not depend on the default. -/
theorem lastVal_of_mem (ms : List (String × String)) :
    ∀ (q d d' : String), q ∈ ms.map Prod.fst →
      lastVal ms q d = lastVal ms q d' := by
  induction ms with
  | nil => intro q d d' hq; exact absurd hq (List.not_mem_nil q)
  | cons m ms ih =>
      intro q d d' hq
      rw [lastVal, lastVal, List.foldl_cons, List.foldl_cons]
      by_cases hmem : q ∈ ms.map Prod.fst
      · exact ih q _ _ hmem
      · rw [List.map_cons, List.mem_cons] at hq
        rcases hq with rfl | hq
        · simp
        · exact absurd hq hmem

/-- Writing to a present path is a pointwise update. -/
theorem fsWrite_of_mem (fs : FS) (p c : String)
    (hp : p ∈ fs.map Prod.fst) :
    fsWrite fs p c = fs.map fun e => if e.1 = p then (p, c) else e := by
  rw [fsWrite, if_pos]
  rw [List.any_eq_true]
  rw [List.mem_map] at hp
  rcases hp with ⟨e, he, hp⟩
  exact ⟨e, he, by rw [beq_iff_eq, hp]⟩

/-- Pointwise updates preserve the key of every entry. -/
theorem keys_map_update (fs : FS) (p c : String) :
    (fs.map fun e => if e.1 = p then (p, c) else e).map Prod.fst =
      fs.map Prod.fst := by
  rw [List.map_map]
  refine List.map_congr_left fun e _ => ?_
  by_cases hc : e.1 = p
  · simp only [Function.comp_apply, if_pos hc]
    exact hc.symm
  · simp only [Function.comp_apply, if_neg hc]

/-- Extracting members whose paths are all already present rewrites each
present file to the last content the archive gives it. -/
theorem extractAll_of_keys_present (ms : List (String × String)) :
    ∀ fs : FS, (∀ m ∈ ms, m.1 ∈ fs.map Prod.fst) →
      extractAll fs ms = fs.map fun e => (e.1, lastVal ms e.1 e.2) := by
  induction ms with
  | nil =>
      intro fs _
      rw [extractAll, List.foldl_nil]
      conv_lhs => rw [← List.map_id fs]
      exact List.map_congr_left fun e _ => rfl
  | cons m ms ih =>
      intro fs hkeys
      rw [extractAll, List.foldl_cons]
      rw [show (ms.foldl (fun s m => fsWrite s m.1 m.2) (fsWrite fs m.1 m.2)) =
        extractAll (fsWrite fs m.1 m.2) ms from rfl]
      rw [fsWrite_of_mem fs m.1 m.2 (hkeys m (List.mem_cons_self m ms))]
      rw [ih _ fun m' hm' => by
        rw [keys_map_update]
        exact hkeys m' (List.mem_cons_of_mem m hm')]
      rw [List.map_map]
      refine List.map_congr_left fun e _ => ?_
      simp only [Function.comp_apply]
      by_cases hc : e.1 = m.1
      · rw [if_pos hc]
        have h1 : lastVal (m :: ms) e.1 e.2 =
            lastVal ms e.1 (if m.1 = e.1 then m.2 else e.2) := rfl
        rw [h1, if_pos hc.symm, hc]
      · rw [if_neg hc]
        have h1 : lastVal (m :: ms) e.1 e.2 =
            lastVal ms e.1 (if m.1 = e.1 then m.2 else e.2) := rfl
        rw [h1, if_neg (fun h => hc h.symm)]

/-- A write to a different path preserves membership backwards. -/
theorem mem_of_mem_fsWrite (fs : FS) (p c q v : String)
    (h : (q, v) ∈ fsWrite fs p c) (hq : q ≠ p) : (q, v) ∈ fs := by
  rw [fsWrite] at h
  split at h
  · rw [List.mem_map] at h
    rcases h with ⟨e, he, h⟩
    by_cases hc : e.1 = p
    · rw [if_pos hc] at h
      exact absurd (congrArg Prod.fst h.symm) hq
    · rw [if_neg hc] at h
      exact h ▸ he
  · rw [List.mem_append] at h
    rcases h with h | h
    · exact h
    · rw [List.mem_singleton] at h
      exact absurd (congrArg Prod.fst h) hq

/-- After writing `(p, c)`, every entry at path `p` has content `c`. -/
theorem fsWrite_content (fs : FS) (p c v : String)
    (h : (p, v) ∈ fsWrite fs p c) : v = c := by
  rw [fsWrite] at h
  split at h
  next hany =>
    rw [List.mem_map] at h
    rcases h with ⟨e, he, h⟩
    by_cases hc : e.1 = p
    · rw [if_pos hc] at h
      exact (congrArg Prod.snd h.symm)
    · rw [if_neg hc] at h
      exact absurd (congrArg Prod.fst h) hc
  next hany =>
    rw [List.mem_append, List.mem_singleton] at h
    rcases h with h | h
    · exfalso
      rw [List.any_eq_true] at hany
      exact hany ⟨(p, v), h, by simp⟩
    · exact congrArg Prod.snd h

/-- Extraction of members avoiding a path preserves membership at that
path backwards. -/
theorem mem_of_mem_extractAll (ms : List (String × String)) :
    ∀ (fs : FS) (q v : String), q ∉ ms.map Prod.fst →
      (q, v) ∈ extractAll fs ms → (q, v) ∈ fs := by
  induction ms with
  | nil => intro fs q v _ h; exact h
  | cons m ms ih =>
      intro fs q v hq h
      rw [List.map_cons, List.mem_cons] at hq
      push_neg at hq
      rw [extractAll, List.foldl_cons] at h
      rw [show (ms.foldl (fun s m => fsWrite s m.1 m.2) (fsWrite fs m.1 m.2)) =
        extractAll (fsWrite fs m.1 m.2) ms from rfl] at h
      exact mem_of_mem_fsWrite fs m.1 m.2 q v (ih _ q v hq.2 h)
        (fun hqq => hq.1 hqq)

/-- The content stored at a member path after extraction is the last
content the archive gives that path. -/
theorem extractAll_content (ms : List (String × String)) :
    ∀ (fs : FS) (q v d : String), (q, v) ∈ extractAll fs ms →
      q ∈ ms.map Prod.fst → lastVal ms q d = v := by
  induction ms with
  | nil => intro fs q v d _ hq; exact absurd hq (List.not_mem_nil q)
  | cons m ms ih =>
      intro fs q v d h hq
      rw [extractAll, List.foldl_cons] at h
      rw [show (ms.foldl (fun s m => fsWrite s m.1 m.2) (fsWrite fs m.1 m.2)) =
        extractAll (fsWrite fs m.1 m.2) ms from rfl] at h
      by_cases hmem : q ∈ ms.map Prod.fst
      · have h1 : lastVal (m :: ms) q d =
            lastVal ms q (if m.1 = q then m.2 else d) := rfl
        rw [h1, lastVal_of_mem ms q _ d hmem]
        exact ih _ q v d h hmem
      · rw [List.map_cons, List.mem_cons] at hq
        rcases hq with hq | hq
        · have hin : (q, v) ∈ fsWrite fs m.1 m.2 :=
            mem_of_mem_extractAll ms _ q v hmem h
          have hin' : (m.1, v) ∈ fsWrite fs m.1 m.2 := hq ▸ hin
          have hv := fsWrite_content fs m.1 m.2 v hin'
          have h1 : lastVal (m :: ms) q d =
              lastVal ms q (if m.1 = q then m.2 else d) := rfl
          rw [h1, if_pos hq.symm, lastVal_of_not_mem ms q m.2 hmem, hv]
        · exact absurd hq hmem

/-- Replaying the extraction of the same archive over its own result
changes nothing. -/
theorem extractAll_idem (fs : FS) (ms : List (String × String)) :
    extractAll (extractAll fs ms) ms = extractAll fs ms := by
  rw [extractAll_of_keys_present ms (extractAll fs ms) fun m hm =>
    (mem_keys_extractAll ms fs m.1).mpr
      (Or.inr (List.mem_map_of_mem Prod.fst hm))]
  conv_rhs => rw [← List.map_id (extractAll fs ms)]
  refine List.map_congr_left fun e he => ?_
  by_cases hq : e.1 ∈ ms.map Prod.fst
  · have hv := extractAll_content ms fs e.1 e.2 e.2
      (by rw [Prod.mk.eta]; exact he) hq
    rw [hv]
    rfl
  · rw [lastVal_of_not_mem ms e.1 e.2 hq]
    rfl

/-- C7 as stated is false: `_decompress` calls
`extractall(path=self.storing_path)`, so members are extracted to
`storingPath/<memberPath>`, not into
`storingPath/<archiveBaseNameWithoutExtension>/`.  With storing path
`/tmp`, archive base `data` and a member `foo/x.csv`, construction
writes `/tmp/foo/x.csv`, which is not inside `/tmp/data/`. -/
theorem extract_target_counterexample :
    initDecompress [] "/tmp" "data" [("foo/x.csv", "c")] false =
      [("/tmp/foo/x.csv", "c")] ∧
    ("/tmp/data/").data.isPrefixOf ("/tmp/foo/x.csv").data = false := by
  decide

/-- C7 amended: constructing a Dataset extracts each archive member `m`
to `storingPath/m` — into the storing path itself, hence inside
`storingPath/<base>/` only when the members are rooted at `<base>/` —
and the extraction is skipped when the directory
`storingPath/<archiveBaseNameWithoutExtension>` already exists, unless
the force flag is set. -/
theorem initDecompress_spec (fs : FS) (storing base : String)
    (members : List (String × String)) (force : Bool) :
    (force = false → existsPath fs (datasetPath storing base) = true →
      initDecompress fs storing base members force = fs) ∧
    (force = true ∨ existsPath fs (datasetPath storing base) = false →
      initDecompress fs storing base members force =
        extractAll fs (members.map fun m => (storing ++ "/" ++ m.1, m.2)) ∧
      ∀ m ∈ members, (storing ++ "/" ++ m.1) ∈
        (initDecompress fs storing base members force).map Prod.fst) := by
  constructor
  · intro hf hex
    rw [initDecompress, hf, hex]
    rfl
  · intro h
    have hcond : (force || !(existsPath fs (datasetPath storing base))) = true := by
      rcases h with h | h
      · rw [h, Bool.true_or]
      · rw [h]
        simp
    have heq : initDecompress fs storing base members force =
        extractAll fs (members.map fun m => (storing ++ "/" ++ m.1, m.2)) := by
      rw [initDecompress, hcond]
      rfl
    refine ⟨heq, fun m hm => ?_⟩
    rw [heq]
    refine (mem_keys_extractAll _ fs _).mpr (Or.inr ?_)
    rw [List.map_map, List.mem_map]
    exact ⟨m, hm, rfl⟩

/-- Witness for C7's amended theorem: a file system where
`/tmp/data` already exists makes a non-forced construction skip, and on
an empty file system the members are extracted under `/tmp/`. -/
theorem initDecompress_spec_witness :
    ((false : Bool) = false) ∧
    existsPath [("/tmp/data/summary.csv", "s")] (datasetPath "/tmp" "data") = true ∧
    initDecompress [("/tmp/data/summary.csv", "s")] "/tmp" "data"
      [("data/summary.csv", "t")] false = [("/tmp/data/summary.csv", "s")] ∧
    initDecompress [] "/tmp" "data" [("data/summary.csv", "t")] false =
      extractAll [] [("/tmp/data/summary.csv", "t")] := by
  refine ⟨rfl, by decide, ?_, ?_⟩
  · exact (initDecompress_spec [("/tmp/data/summary.csv", "s")] "/tmp" "data"
      [("data/summary.csv", "t")] false).1 rfl (by decide)
  · exact ((initDecompress_spec [] "/tmp" "data"
      [("data/summary.csv", "t")] false).2 (Or.inr (by decide))).1

/-- C8's parenthetical is false: for an archive whose members are not
rooted at `<base>/`, the directory `storingPath/<base>` still does not
exist after the first construction, so the second construction runs the
extraction again (it does not skip).  First conjunct: the first
construction did change the empty working directory; second conjunct:
the skip check fails again afterwards. -/
theorem reextract_counterexample :
    initDecompress [] "/tmp" "data" [("foo/x.csv", "c")] false ≠ [] ∧
    existsPath (initDecompress [] "/tmp" "data" [("foo/x.csv", "c")] false)
      (datasetPath "/tmp" "data") = false := by
  decide

/-- C8 amended: constructing a Dataset twice with
`forceDecompress=false` leaves the working directory unchanged after the
first construction.  When `storingPath/<base>` exists the second
construction skips the extraction; otherwise it re-extracts the same
archive, overwriting every member with identical content, which is a
no-op on the file system. -/
theorem initDecompress_idempotent (fs : FS) (storing base : String)
    (members : List (String × String)) :
    initDecompress (initDecompress fs storing base members false)
        storing base members false =
      initDecompress fs storing base members false := by
  by_cases h1 : existsPath fs (datasetPath storing base) = true
  · have hskip : initDecompress fs storing base members false = fs := by
      rw [initDecompress, h1]
      rfl
    rw [hskip, hskip]
  · rw [Bool.not_eq_true] at h1
    have hext : initDecompress fs storing base members false =
        extractAll fs (members.map fun m => (storing ++ "/" ++ m.1, m.2)) := by
      rw [initDecompress, h1]
      rfl
    rw [hext]
    by_cases h2 : existsPath
        (extractAll fs (members.map fun m => (storing ++ "/" ++ m.1, m.2)))
        (datasetPath storing base) = true
    · rw [initDecompress, h2]
      rfl
    · rw [Bool.not_eq_true] at h2
      rw [initDecompress, h2]
      simp only [Bool.false_or, Bool.not_false, if_true]
      exact extractAll_idem fs _

/-- The run state of one Python generator produced by `next_batch`: not
yet started (the body has not run; only the `batch_size` argument is
recorded — no snapshot of the cursor), suspended inside the `yield` loop
with the remaining elements of the computed slice, or exhausted. -/
inductive GenState (β : Type) where
  | unstarted (batch_size : Option Int)
  | running (rest : List β)
  | finished
deriving Repr, DecidableEq

/-- Calling `next_image_batch` (Python semantics): since `next_batch` is
a generator function, the call builds a generator object without
executing any of the body — the Dataset is untouched and the generator
is unstarted. -/
def next_image_batch_gen (d : Dataset) (batch_size : Option Int) :
    Dataset × GenState β :=
  (d, .unstarted batch_size)

/-- One `next()` on an image-batch generator, given the current shared
Dataset state.  The first resume of an unstarted generator runs the body
of `next_batch` up to the first `yield`: it reads the current cursor,
computes the effective batch size and the slice, writes the advanced
cursor back, and yields the slice's head (or terminates on an empty
slice).  Later resumes step through the already-computed slice without
touching the Dataset. -/
def resumeImage (d : Dataset) (mapping : Key2 → β) :
    GenState β → Option β × Dataset × GenState β
  | .unstarted bs =>
      let r := next_batch d.image_index d.n_image mapping bs
      match r.1 with
      | [] => (none, { d with n_image := r.2 }, .finished)
      | x :: rest => (some x, { d with n_image := r.2 }, .running rest)
  | .running [] => (none, d, .finished)
  | .running (x :: rest) => (some x, d, .running rest)
  | .finished => (none, d, .finished)

/-- Exhaust an image-batch generator, collecting every yielded element
and threading the shared Dataset state; `fuel` bounds the number of
resumes. -/
def runGen (mapping : Key2 → β) : Nat → Dataset → GenState β → List β × Dataset
  | 0, d, _ => ([], d)
  | fuel + 1, d, g =>
      match resumeImage d mapping g with
      | (none, d', _) => ([], d')
      | (some x, d', g') =>
          let r := runGen mapping fuel d' g'
          (x :: r.1, r.2)

/-- A generator suspended in its yield loop replays the remaining slice
and never touches the Dataset. -/
theorem runGen_running (mapping : Key2 → β) :
    ∀ (rest : List β) (fuel : Nat) (d : Dataset), rest.length < fuel →
      runGen mapping fuel d (.running rest) = (rest, d) := by
  intro rest
  induction rest with
  | nil =>
      intro fuel d hf
      match fuel, hf with
      | fuel + 1, _ => rfl
  | cons x rest ih =>
      intro fuel d hf
      match fuel, hf with
      | fuel + 1, hf =>
          show (x :: (runGen mapping fuel d (.running rest)).1,
            (runGen mapping fuel d (.running rest)).2) = (x :: rest, d)
          rw [ih fuel d (by simpa using Nat.lt_of_succ_lt_succ hf)]

/-- Calling `next_profile_batch` (Python semantics): the call builds a
generator object without executing any of the body — the Dataset is
untouched and the generator is unstarted. -/
def next_profile_batch_gen (d : Dataset) (batch_size : Option Int) :
    Dataset × GenState β :=
  (d, .unstarted batch_size)

/-- One `next()` on a profile-batch generator, given the current shared
Dataset state: the same body as `resumeImage` over `profile_index` and
`_n_profile`. -/
def resumeProfile (d : Dataset) (mapping : Key3 → β) :
    GenState β → Option β × Dataset × GenState β
  | .unstarted bs =>
      let r := next_batch d.profile_index d.n_profile mapping bs
      match r.1 with
      | [] => (none, { d with n_profile := r.2 }, .finished)
      | x :: rest => (some x, { d with n_profile := r.2 }, .running rest)
  | .running [] => (none, d, .finished)
  | .running (x :: rest) => (some x, d, .running rest)
  | .finished => (none, d, .finished)

/-- Exhaust a profile-batch generator, collecting every yielded element
and threading the shared Dataset state; `fuel` bounds the number of
resumes. -/
def runGenProfile (mapping : Key3 → β) :
    Nat → Dataset → GenState β → List β × Dataset
  | 0, d, _ => ([], d)
  | fuel + 1, d, g =>
      match resumeProfile d mapping g with
      | (none, d', _) => ([], d')
      | (some x, d', g') =>
          let r := runGenProfile mapping fuel d' g'
          (x :: r.1, r.2)

/-- A profile generator suspended in its yield loop replays the
remaining slice and never touches the Dataset. -/
theorem runGenProfile_running (mapping : Key3 → β) :
    ∀ (rest : List β) (fuel : Nat) (d : Dataset), rest.length < fuel →
      runGenProfile mapping fuel d (.running rest) = (rest, d) := by
  intro rest
  induction rest with
  | nil =>
      intro fuel d hf
      match fuel, hf with
      | fuel + 1, _ => rfl
  | cons x rest ih =>
      intro fuel d hf
      match fuel, hf with
      | fuel + 1, hf =>
          show (x :: (runGenProfile mapping fuel d (.running rest)).1,
            (runGenProfile mapping fuel d (.running rest)).2) = (x :: rest, d)
          rw [ih fuel d (by simpa using Nat.lt_of_succ_lt_succ hf)]

/-- C9: `next_image_batch` and `next_profile_batch` return generators
whose bodies have not yet run: either call leaves the Dataset (both
cursors and all other state) unchanged, calls made before any result is
consumed all see the original state (so two pending calls start from the
same cursor position), the generator objects record only the batch size
(no cursor snapshot), and a cursor is advanced only when the
corresponding generator is consumed — consuming it fully yields exactly
the elements of `next_batch` read off the state at consumption time and
applies `next_batch`'s cursor update. -/
theorem batch_generators_are_lazy (d : Dataset) (mappingI : Key2 → β)
    (mappingP : Key3 → γ) (bs bsP bs' : Option Int) (fuel fuelP : Nat)
    (hfuel : (next_batch d.image_index d.n_image mappingI bs).1.length < fuel)
    (hfuelP :
      (next_batch d.profile_index d.n_profile mappingP bsP).1.length < fuelP) :
    (next_image_batch_gen (β := β) d bs).1 = d ∧
    (next_profile_batch_gen (β := γ) d bsP).1 = d ∧
    (next_image_batch_gen (β := β)
      (next_profile_batch_gen (β := γ) d bs').1 bs).1 = d ∧
    (next_profile_batch_gen (β := γ)
      (next_image_batch_gen (β := β) d bs').1 bsP).1 = d ∧
    (next_image_batch_gen (β := β) d bs).2 = GenState.unstarted bs ∧
    (next_profile_batch_gen (β := γ) d bsP).2 = GenState.unstarted bsP ∧
    runGen mappingI fuel d (next_image_batch_gen (β := β) d bs).2 =
      ((next_batch d.image_index d.n_image mappingI bs).1,
       { d with
          n_image := (next_batch d.image_index d.n_image mappingI bs).2 }) ∧
    runGenProfile mappingP fuelP d (next_profile_batch_gen (β := γ) d bsP).2 =
      ((next_batch d.profile_index d.n_profile mappingP bsP).1,
       { d with
          n_profile :=
            (next_batch d.profile_index d.n_profile mappingP bsP).2 }) := by
  refine ⟨rfl, rfl, rfl, rfl, rfl, rfl, ?_, ?_⟩
  · match fuel, hfuel with
    | fuel + 1, hfuel =>
        show (match resumeImage d mappingI (.unstarted bs) with
          | (none, d', _) => ([], d')
          | (some x, d', g') =>
              let r := runGen mappingI fuel d' g'
              (x :: r.1, r.2)) = _
        rw [resumeImage]
        cases helems : (next_batch d.image_index d.n_image mappingI bs).1 with
        | nil =>
            simp only [helems]
        | cons x rest =>
            simp only [helems]
            rw [runGen_running mappingI rest fuel _ (by
              rw [helems] at hfuel
              simpa using Nat.lt_of_succ_lt_succ hfuel)]
  · match fuelP, hfuelP with
    | fuelP + 1, hfuelP =>
        show (match resumeProfile d mappingP (.unstarted bsP) with
          | (none, d', _) => ([], d')
          | (some x, d', g') =>
              let r := runGenProfile mappingP fuelP d' g'
              (x :: r.1, r.2)) = _
        rw [resumeProfile]
        cases helems :
            (next_batch d.profile_index d.n_profile mappingP bsP).1 with
        | nil =>
            simp only [helems]
        | cons x rest =>
            simp only [helems]
            rw [runGenProfile_running mappingP rest fuelP _ (by
              rw [helems] at hfuelP
              simpa using Nat.lt_of_succ_lt_succ hfuelP)]

/-- Witness for C9 at a concrete Dataset: one image with two fibers,
batch size `None` for both calls, fuel 2 and 3: both calls leave the
Dataset untouched, and consuming each generator advances only its own
cursor. -/
theorem batch_generators_are_lazy_witness :
    ((next_batch
        (Dataset.ofSummaryIndex [("a", "1", "f1"), ("a", "1", "f2")]).image_index
        (Dataset.ofSummaryIndex [("a", "1", "f1"), ("a", "1", "f2")]).n_image
        id none).1.length < 2) ∧
    ((next_batch
        (Dataset.ofSummaryIndex
          [("a", "1", "f1"), ("a", "1", "f2")]).profile_index
        (Dataset.ofSummaryIndex [("a", "1", "f1"), ("a", "1", "f2")]).n_profile
        id none).1.length < 3) ∧
    (next_image_batch_gen (β := Key2)
      (Dataset.ofSummaryIndex [("a", "1", "f1"), ("a", "1", "f2")]) none).1 =
        Dataset.ofSummaryIndex [("a", "1", "f1"), ("a", "1", "f2")] ∧
    (next_profile_batch_gen (β := Key3)
      (Dataset.ofSummaryIndex [("a", "1", "f1"), ("a", "1", "f2")]) none).1 =
        Dataset.ofSummaryIndex [("a", "1", "f1"), ("a", "1", "f2")] ∧
    runGen id 2 (Dataset.ofSummaryIndex [("a", "1", "f1"), ("a", "1", "f2")])
      (next_image_batch_gen (β := Key2)
        (Dataset.ofSummaryIndex [("a", "1", "f1"), ("a", "1", "f2")]) none).2 =
      ([("a", "1")],
       { Dataset.ofSummaryIndex [("a", "1", "f1"), ("a", "1", "f2")] with
          n_image := 1 }) ∧
    runGenProfile id 3
      (Dataset.ofSummaryIndex [("a", "1", "f1"), ("a", "1", "f2")])
      (next_profile_batch_gen (β := Key3)
        (Dataset.ofSummaryIndex [("a", "1", "f1"), ("a", "1", "f2")]) none).2 =
      ([("a", "1", "f1"), ("a", "1", "f2")],
       { Dataset.ofSummaryIndex [("a", "1", "f1"), ("a", "1", "f2")] with
          n_profile := 2 }) := by
  have h := batch_generators_are_lazy
    (Dataset.ofSummaryIndex [("a", "1", "f1"), ("a", "1", "f2")])
    (id : Key2 → Key2) (id : Key3 → Key3) none none none 2 3
    (by decide) (by decide)
  refine ⟨by decide, by decide, h.1, h.2.1, ?_, ?_⟩
  · rw [h.2.2.2.2.2.2.1]
    decide
  · rw [h.2.2.2.2.2.2.2]
    decide

end DFA
